import Mathlib

/-!
Shallow embedding of `src/main.rs` of the bingo-card generator.

Rust strings are modelled as `List Char`.  The `HashSet<String>` of tiles is
modelled as a `List (List Char)` without duplicates (`List.Nodup`); iteration
order of the hash set is arbitrary, so theorems quantify over every such list.
Fallible operations (checked `usize` subtraction, `Vec` indexing, `unwrap`)
are modelled with `Except`/`Option`; the random number generator is modelled
by an explicit list of swap positions handed to the Fisher-Yates shuffle.
-/

namespace Bingo

/-- Rust `String` / `&str`, modelled as its list of characters. -/
abbrev Tile := List Char

/-! ### load_tiles (main.rs lines 68-77) -/

/-- Rust `str::trim`: drop whitespace from both ends. -/
def trimLC (s : List Char) : List Char :=
  ((s.dropWhile Char.isWhitespace).reverse.dropWhile Char.isWhitespace).reverse

/-- Rust `str::replace("\\n", "\n")` specialised to this call site: every
occurrence of the two-character sequence backslash-n becomes a newline
(leftmost, non-overlapping). -/
def replaceEscN : List Char → List Char
  | [] => []
  | [c] => [c]
  | c :: d :: rest =>
    if c = '\\' ∧ d = 'n' then '\n' :: replaceEscN rest
    else c :: replaceEscN (d :: rest)

/-- The per-line processing of `load_tiles`: `line.trim().replace("\\n", "\n")`. -/
def processLine (s : List Char) : List Char :=
  replaceEscN (trimLC s)

/-- `load_tiles` (main.rs lines 68-77), abstracting the file read: given the
lines of `tiles.txt`, trim and unescape each, drop empties, and collect into a
`HashSet` (modelled as a deduplicated list). -/
def load_tiles (fileLines : List (List Char)) : List Tile :=
  ((fileLines.map processLine).filter (fun l => l ≠ [])).dedup

/-! ### levenshtein (the `levenshtein` crate, borrowed as a black box) -/

/-- Levenshtein edit distance with unit insert/delete/substitute costs, as
computed by the `levenshtein` crate: Mathlib's `levenshtein` at the default
cost structure. -/
def levDist (a b : Tile) : Nat :=
  levenshtein Levenshtein.defaultCost a b

/-! ### check_tiles (main.rs lines 40-62) -/

/-- One printed report of `check_tiles`. -/
inductive Report where
  | dup (a : Tile)
  | similar (dist : Nat) (a b : Tile)
deriving DecidableEq

/-- Checked `usize` subtraction: Rust (debug profile) panics on underflow. -/
def usizeSub (a b : Nat) : Except String Nat :=
  if b ≤ a then Except.ok (a - b) else Except.error "attempt to subtract with overflow"

/-- Rust `Vec` indexing `v[i]`: panics when out of bounds. -/
def vecGet (v : List Tile) (i : Nat) : Except String Tile :=
  match v[i]? with
  | some x => Except.ok x
  | none => Except.error "index out of bounds"

/-- Inner loop of `check_tiles`: `for j in i+1..tiles.len()`, with `js` the
remaining values of `j`.  Produces the printed reports in order: a duplicate
report when `tiles[i] == tiles[j]` (skipping the distance), otherwise a
similarity report when the edit distance is at most the limit. -/
def innerLoop (tiles : List Tile) (limit i : Nat) : List Nat → Except String (List Report)
  | [] => Except.ok []
  | j :: js =>
    match vecGet tiles i, vecGet tiles j with
    | Except.ok a, Except.ok b =>
      (innerLoop tiles limit i js).map fun rest =>
        if a = b then Report.dup a :: rest
        else if levDist a b ≤ limit then
          Report.similar (levDist a b) a b :: rest
        else rest
    | Except.error e, _ => Except.error e
    | _, Except.error e => Except.error e

/-- Outer loop of `check_tiles`: `for i in 0..tiles.len() - 1`, with `is` the
remaining values of `i`. -/
def outerLoop (tiles : List Tile) (limit : Nat) : List Nat → Except String (List Report)
  | [] => Except.ok []
  | i :: is =>
    match innerLoop tiles limit i (List.range' (i + 1) (tiles.length - (i + 1))) with
    | Except.ok rs => (outerLoop tiles limit is).map fun rest => rs ++ rest
    | Except.error e => Except.error e

/-- `check_tiles` (main.rs lines 40-62) on the `Vec` collected from the tile
set, returning the list of printed reports, or `Except.error` for a panic.
The loop bound `tiles.len() - 1` is the checked subtraction. -/
def check_tiles (tiles : List Tile) (distance_limit : Nat) : Except String (List Report) :=
  match usizeSub tiles.length 1 with
  | Except.ok m => outerLoop tiles distance_limit (List.range m)
  | Except.error e => Except.error e

/-- The report `check_tiles` emits for the in-bounds index pair `(i, j)` of a
duplicate-free tile vector: a similarity report exactly when the edit
distance is at most the limit. -/
def simReport (tiles : List Tile) (limit i j : Nat) : Option Report :=
  let a := tiles.getD i []
  let b := tiles.getD j []
  if levDist a b ≤ limit then some (Report.similar (levDist a b) a b) else none

/-- The index pairs `(i, j)` with `i < j < n`, in the traversal order of the
two nested loops of `check_tiles`. -/
def allPairs (n : Nat) : List (Nat × Nat) :=
  (List.range (n - 1)).flatMap fun i =>
    (List.range' (i + 1) (n - (i + 1))).map fun j => (i, j)

/-! ### generate_for_person (main.rs lines 79-142) -/

/-- Swap the entries of a list at positions `i` and `j` (Rust
`slice::swap`); an out-of-range position leaves the list unchanged. -/
def swapIdx {α : Type} (l : List α) (i j : Nat) : List α :=
  match l[i]?, l[j]? with
  | some a, some b => (l.set i b).set j a
  | _, _ => l

/-- `SliceRandom::shuffle` performs a sequence of in-place swaps
(Fisher-Yates); the random choices of the rng are abstracted as the list
`swaps` of position pairs. -/
def shuffleFY {α : Type} (swaps : List (Nat × Nat)) (l : List α) : List α :=
  swaps.foldl (fun acc p => swapIdx acc p.1 p.2) l

/-- Content written to one worksheet cell by the tile loop. -/
inductive CellContent where
  | tile (t : Tile)
  | freeSquare (t : Tile)
deriving DecidableEq

/-- One worksheet: its name and the `(row, column, content)` writes of the
tile loop, in order (header and formatting calls are glue, not modelled). -/
structure Sheet where
  name : Tile
  cells : List (Nat × Nat × CellContent)
deriving DecidableEq

instance : Inhabited Sheet := ⟨⟨[], []⟩⟩

/-- The tile-placement loop (main.rs lines 118-141): for the tile at shuffled
position `i`, `row = i as u32 % 5 + HEADER_ROWS` and
`col = i as u16 / 5 + LEFT_COLS` with `HEADER_ROWS = 2`, `LEFT_COLS = 1`; the
truncating casts are `% 4294967296` (`as u32`) and `% 65536` (`as u16`).  The
cell with `row == 2 + HEADER_ROWS && col == 2 + LEFT_COLS` receives the
free-square text instead of its tile. -/
def placeTiles (shuffled : List Tile) (free : Tile) : List (Nat × Nat × CellContent) :=
  shuffled.enum.map fun p =>
    if p.1 % 4294967296 % 5 + 2 = 2 + 2 ∧ p.1 % 65536 / 5 + 1 = 2 + 1 then
      (p.1 % 4294967296 % 5 + 2, p.1 % 65536 / 5 + 1, CellContent.freeSquare free)
    else
      (p.1 % 4294967296 % 5 + 2, p.1 % 65536 / 5 + 1, CellContent.tile p.2)

/-- `generate_for_person` (main.rs lines 79-142): add a worksheet named after
the person, shuffle the tile vector with the rng's swaps, and write the
grid. -/
def generate_for_person (name : Tile) (swaps : List (Nat × Nat)) (tiles : List Tile)
    (free : Tile) : Sheet :=
  { name := name, cells := placeTiles (shuffleFY swaps tiles) free }

/-- The tiles a sheet's cells contain, in write order (free square excluded). -/
def placedTiles (s : Sheet) : List Tile :=
  s.cells.filterMap fun e =>
    match e.2.2 with
    | CellContent.tile t => some t
    | CellContent.freeSquare _ => none

/-! ### main (main.rs lines 6-38) -/

/-- The mutable locals of `main` (lines 7-9). -/
structure Config where
  free_square : Tile
  distance_limit : Nat
  people : List Tile
deriving DecidableEq

/-- Initial values of the locals of `main` (lines 7-9). -/
def defaultConfig : Config :=
  { free_square := "FREE SQUARE".toList
    distance_limit := 3
    people := ["Alice".toList, "Bob".toList] }

/-- Rust `str::strip_prefix` on string prefixes. -/
def stripPrefixLC (pre s : List Char) : Option (List Char) :=
  if pre.isPrefixOf s then some (s.drop pre.length) else none

/-- Rust `str::parse::<usize>()`: an optional leading `+`, then at least one
ASCII digit (the `usize` overflow error is not modelled). -/
def parseUsize (s : List Char) : Option Nat :=
  let t := match s with
    | '+' :: r => r
    | _ => s
  if t = [] then none
  else if t.all Char.isDigit then
    some (t.foldl (fun acc c => acc * 10 + (c.toNat - 48)) 0)
  else none

/-- Rust `str::split(',')`. -/
def splitComma : List Char → List (List Char)
  | [] => [[]]
  | c :: rest =>
    match splitComma rest with
    | [] => [[c]]
    | g :: gs => if c = ',' then [] :: g :: gs else (c :: g) :: gs

/-- Outcome of processing one command-line argument (lines 11-26). -/
inductive ArgStep where
  | cont (c : Config)
  | usage
  | panic
deriving DecidableEq

/-- One iteration of the argument loop (lines 11-26): `--dist=` parses the
limit (`unwrap` panics when parsing fails), `--people=` replaces the people
list with the comma-split, trimmed names, `-h` prints usage and returns, and
any other argument not starting with `-` becomes the free-square text. -/
def processArg (c : Config) (arg : List Char) : ArgStep :=
  match stripPrefixLC ("--dist=".toList) arg with
  | some d =>
    match parseUsize d with
    | some n => ArgStep.cont { c with distance_limit := n }
    | none => ArgStep.panic
  | none =>
    match stripPrefixLC ("--people=".toList) arg with
    | some pp => ArgStep.cont { c with people := (splitComma pp).map trimLC }
    | none =>
      if arg = "-h".toList then ArgStep.usage
      else if arg.head? ≠ some '-' then ArgStep.cont { c with free_square := arg }
      else ArgStep.cont c

/-- The argument loop of `main` over `std::env::args().skip(1)`. -/
def runArgs (c : Config) : List (List Char) → ArgStep
  | [] => ArgStep.cont c
  | a :: rest =>
    match processArg c a with
    | ArgStep.cont c2 => runArgs c2 rest
    | ArgStep.usage => ArgStep.usage
    | ArgStep.panic => ArgStep.panic

/-- Observable outcome of a run of `main`: a panic, the `-h` usage path, or
the workbook of generated sheets. -/
inductive MainResult where
  | panic
  | usage
  | done (sheets : List Sheet)
deriving DecidableEq

/-- The worksheet loop of `main` (lines 33-35): one `generate_for_person`
call per person, in order; the card for person `k` consumes the rng swaps
`shuffles k`. -/
def buildSheets (people : List Tile) (tiles : List Tile) (free : Tile)
    (shuffles : Nat → List (Nat × Nat)) : List Sheet :=
  people.enum.map fun p => generate_for_person p.2 (shuffles p.1) tiles free

/-- `main` (lines 6-38): process the arguments, read (`fileLines` is `some`
of the lines of `tiles.txt`, or `none` when opening or reading fails, which
`unwrap` turns into a panic) and check the tiles, then generate one sheet per
person; the panic of `check_tiles` on an empty tile set is propagated. -/
def mainModel (args : List (List Char)) (fileLines : Option (List (List Char)))
    (shuffles : Nat → List (Nat × Nat)) : MainResult :=
  match runArgs defaultConfig args with
  | ArgStep.panic => MainResult.panic
  | ArgStep.usage => MainResult.usage
  | ArgStep.cont c =>
    match fileLines with
    | none => MainResult.panic
    | some ls =>
      let tiles := load_tiles ls
      match check_tiles tiles c.distance_limit with
      | Except.error _ => MainResult.panic
      | Except.ok _ => MainResult.done (buildSheets c.people tiles c.free_square shuffles)

/-- A concrete 65548-element tile set (pairwise distinct, non-empty tiles):
enough tiles for the truncating `as u16` cast of the column computation to
hit the center condition a second time, at shuffled index 65547. -/
def bigTiles : List Tile :=
  (List.range 65548).map fun k => List.replicate (k + 1) 'a'

/-! ### Helper lemmas -/

theorem replaceEscN_ne_nil : ∀ (s : List Char), s ≠ [] → replaceEscN s ≠ []
  | [c], _ => by simp [replaceEscN]
  | c :: d :: rest, _ => by
    unfold replaceEscN
    split <;> simp

theorem replaceEscN_eq_nil_iff (s : List Char) : replaceEscN s = [] ↔ s = [] := by
  constructor
  · intro h
    by_contra hne
    exact replaceEscN_ne_nil s hne h
  · rintro rfl
    rfl

theorem processLine_eq_nil_iff (s : List Char) : processLine s = [] ↔ trimLC s = [] := by
  unfold processLine
  exact replaceEscN_eq_nil_iff _

theorem mem_allPairs (n i j : Nat) : (i, j) ∈ allPairs n ↔ i < j ∧ j < n := by
  simp only [allPairs, List.mem_flatMap, List.mem_map, List.mem_range, List.mem_range'_1,
    Prod.mk.injEq]
  constructor
  · rintro ⟨i', hi', j', ⟨h1, h2⟩, rfl, rfl⟩
    omega
  · rintro ⟨h1, h2⟩
    exact ⟨i, by omega, j, ⟨by omega, by omega⟩, rfl, rfl⟩

theorem nodup_allPairs (n : Nat) : (allPairs n).Nodup := by
  rw [allPairs, List.nodup_flatMap]
  refine ⟨fun i _ => ?_, ?_⟩
  · exact (List.nodup_range' _ _).map (fun a b h => (Prod.mk.injEq _ _ _ _ ▸ h).2)
  · refine (List.pairwise_lt_range _).imp ?_
    intro a b hab
    intro x hxa hxb
    rcases List.mem_map.mp hxa with ⟨_, _, rfl⟩
    rcases List.mem_map.mp hxb with ⟨_, _, hx⟩
    exact absurd (congrArg Prod.fst hx).symm (Nat.ne_of_lt hab)

theorem vecGet_ok (v : List Tile) (i : Nat) (h : i < v.length) :
    vecGet v i = Except.ok (v.getD i []) := by
  simp [vecGet, List.getElem?_eq_getElem h, List.getD_eq_getElem v [] h]

theorem innerLoop_ok (tiles : List Tile) (limit i : Nat) (hi : i < tiles.length)
    (hnd : tiles.Nodup) :
    ∀ js : List Nat, (∀ j ∈ js, i < j ∧ j < tiles.length) →
      innerLoop tiles limit i js = Except.ok (js.filterMap (simReport tiles limit i))
  | [], _ => rfl
  | j :: js, h => by
    have hj := h j (List.mem_cons_self j js)
    have hrec := innerLoop_ok tiles limit i hi hnd js
      (fun j' hj' => h j' (List.mem_cons_of_mem j hj'))
    have hij : tiles.getD i [] ≠ tiles.getD j [] := by
      rw [List.getD_eq_getElem tiles [] hi, List.getD_eq_getElem tiles [] hj.2]
      intro hEq
      have := (hnd.getElem_inj_iff).mp hEq
      omega
    rw [innerLoop, vecGet_ok tiles i hi, vecGet_ok tiles j hj.2, hrec]
    simp only [Except.map_ok, List.filterMap_cons, if_neg hij, simReport]
    split <;> rfl

theorem outerLoop_ok (tiles : List Tile) (limit : Nat) (hnd : tiles.Nodup) :
    ∀ is : List Nat, (∀ i ∈ is, i < tiles.length) →
      outerLoop tiles limit is = Except.ok (is.flatMap fun i =>
        (List.range' (i + 1) (tiles.length - (i + 1))).filterMap (simReport tiles limit i))
  | [], _ => rfl
  | i :: is, h => by
    have hi := h i (List.mem_cons_self i is)
    have hrec := outerLoop_ok tiles limit hnd is
      (fun i' hi' => h i' (List.mem_cons_of_mem i hi'))
    have hinner := innerLoop_ok tiles limit i hi hnd
      (List.range' (i + 1) (tiles.length - (i + 1)))
      (fun j hjmem => by
        rcases List.mem_range'_1.mp hjmem with ⟨h1, h2⟩
        omega)
    rw [outerLoop, hinner, hrec]
    rfl

/-- Shared characterisation: on a non-empty duplicate-free tile vector,
`check_tiles` succeeds and reports exactly the similar pairs, one report per
index pair `(i, j)` with `i < j`. -/
theorem check_tiles_eq (tiles : List Tile) (limit : Nat) (hnd : tiles.Nodup)
    (hne : tiles ≠ []) :
    check_tiles tiles limit =
      Except.ok ((allPairs tiles.length).filterMap fun p => simReport tiles limit p.1 p.2) := by
  have hlen : 1 ≤ tiles.length := by
    cases tiles with
    | nil => exact absurd rfl hne
    | cons a t => simp
  have h1 : check_tiles tiles limit = outerLoop tiles limit (List.range (tiles.length - 1)) := by
    rw [check_tiles, usizeSub, if_pos hlen]
  rw [h1, outerLoop_ok tiles limit hnd (List.range (tiles.length - 1))
    (fun i hi => by have := List.mem_range.mp hi; omega)]
  congr 1
  rw [allPairs]
  induction List.range (tiles.length - 1) with
  | nil => rfl
  | cons x xs ih =>
    rw [List.flatMap_cons, List.flatMap_cons, List.filterMap_append, ih, List.filterMap_map]
    rfl

/-- **C3.** For every file content, `load_tiles` returns exactly the set of
lines after trimming and replacing `\\n` with a newline, lines empty after
trimming excluded, and the result has no duplicates. -/
theorem load_tiles_spec (fileLines : List (List Char)) :
    (load_tiles fileLines).Nodup ∧
    ∀ x, x ∈ load_tiles fileLines ↔
      ∃ l ∈ fileLines, trimLC l ≠ [] ∧ processLine l = x := by
  constructor
  · exact List.nodup_dedup _
  · intro x
    unfold load_tiles
    rw [List.mem_dedup, List.mem_filter]
    simp only [List.mem_map, decide_eq_true_eq]
    constructor
    · rintro ⟨⟨l, hl, rfl⟩, hne⟩
      exact ⟨l, hl, fun hc => hne ((processLine_eq_nil_iff l).mpr hc), rfl⟩
    · rintro ⟨l, hl, hne, rfl⟩
      exact ⟨⟨l, hl, rfl⟩, fun hc => hne ((processLine_eq_nil_iff l).mp hc)⟩

theorem cons_set_perm {α : Type} : ∀ (xs : List α) (k : Nat) (a b : α),
    xs[k]? = some b → (b :: xs.set k a).Perm (a :: xs)
  | c :: cs, 0, a, b, h => by
    simp only [List.getElem?_cons_zero, Option.some.injEq] at h
    subst h
    exact List.Perm.swap a c cs
  | c :: cs, k + 1, a, b, h => by
    simp only [List.getElem?_cons_succ] at h
    have ih := cons_set_perm cs k a b h
    have s1 : (b :: c :: cs.set k a).Perm (c :: b :: cs.set k a) := List.Perm.swap c b _
    have s2 : (c :: b :: cs.set k a).Perm (c :: a :: cs) := List.Perm.cons c ih
    have s3 : (c :: a :: cs).Perm (a :: c :: cs) := List.Perm.swap a c cs
    exact (s1.trans s2).trans s3

theorem set_set_perm {α : Type} : ∀ (l : List α) (i j : Nat) (a b : α),
    l[i]? = some a → l[j]? = some b → ((l.set i b).set j a).Perm l
  | [], i, j, a, b, hi, hj => by simp at hi
  | x :: xs, 0, 0, a, b, hi, hj => by
    simp only [List.getElem?_cons_zero, Option.some.injEq] at hi hj
    subst hi; subst hj
    exact List.Perm.refl _
  | x :: xs, 0, j + 1, a, b, hi, hj => by
    simp only [List.getElem?_cons_zero, Option.some.injEq] at hi
    simp only [List.getElem?_cons_succ] at hj
    subst hi
    exact cons_set_perm xs j x b hj
  | x :: xs, i + 1, 0, a, b, hi, hj => by
    simp only [List.getElem?_cons_zero, Option.some.injEq] at hj
    simp only [List.getElem?_cons_succ] at hi
    subst hj
    exact cons_set_perm xs i x a hi
  | x :: xs, i + 1, j + 1, a, b, hi, hj => by
    simp only [List.getElem?_cons_succ] at hi hj
    exact List.Perm.cons x (set_set_perm xs i j a b hi hj)

theorem swapIdx_perm {α : Type} (l : List α) (i j : Nat) : (swapIdx l i j).Perm l := by
  unfold swapIdx
  split
  · next a b hi hj => exact set_set_perm l i j a b hi hj
  · exact List.Perm.refl l

theorem shuffleFY_nil {α : Type} (l : List α) : shuffleFY [] l = l := rfl

theorem shuffleFY_perm {α : Type} (swaps : List (Nat × Nat)) (l : List α) :
    (shuffleFY swaps l).Perm l := by
  induction swaps generalizing l with
  | nil => exact List.Perm.refl l
  | cons p ps ih =>
    exact List.Perm.trans (ih (swapIdx l p.1 p.2)) (swapIdx_perm l p.1 p.2)

theorem center_iff (i : Nat) (h : i < 65547) :
    (i % 4294967296 % 5 + 2 = 2 + 2 ∧ i % 65536 / 5 + 1 = 2 + 1) ↔ i = 12 := by
  have h32 : i % 4294967296 = i := Nat.mod_eq_of_lt (by omega)
  rw [h32]
  constructor
  · rintro ⟨ha, hb⟩
    by_cases h16 : i < 65536
    · have e16 : i % 65536 = i := Nat.mod_eq_of_lt h16
      rw [e16] at hb
      omega
    · have e16 : i % 65536 = i - 65536 := by omega
      rw [e16] at hb
      omega
  · rintro rfl
    exact ⟨by omega, by omega⟩

theorem center_at_65547 :
    65547 % 4294967296 % 5 + 2 = 2 + 2 ∧ 65547 % 65536 / 5 + 1 = 2 + 1 := by
  omega

theorem enumFrom_filterMap_ne (t : List Tile) : ∀ (m c : Nat), c < m →
    ((List.enumFrom m t).filterMap fun p => if p.1 = c then none else some p.2) = t := by
  induction t with
  | nil => intro m c h; rfl
  | cons a t ih =>
    intro m c h
    simp only [List.enumFrom, List.filterMap_cons, if_neg (by omega : ¬ m = c)]
    rw [ih (m + 1) c (by omega)]

theorem enumFrom_filterMap_eraseIdx : ∀ (t : List Tile) (n c : Nat), n ≤ c →
    ((List.enumFrom n t).filterMap fun p => if p.1 = c then none else some p.2) =
      t.eraseIdx (c - n)
  | [], n, c, h => rfl
  | a :: t, n, c, h => by
    by_cases hc : n = c
    · subst hc
      simp only [List.enumFrom, List.filterMap_cons, if_pos rfl, Nat.sub_self,
        List.eraseIdx_zero]
      exact enumFrom_filterMap_ne t (n + 1) n (by omega)
    · simp only [List.enumFrom, List.filterMap_cons, if_neg hc]
      rw [enumFrom_filterMap_eraseIdx t (n + 1) c (by omega)]
      rw [show c - n = (c - (n + 1)) + 1 by omega, List.eraseIdx_cons_succ]

theorem placedTiles_eq_filterMap (name : Tile) (swaps : List (Nat × Nat)) (tiles : List Tile)
    (free : Tile) :
    placedTiles (generate_for_person name swaps tiles free) =
      (shuffleFY swaps tiles).enum.filterMap fun p =>
        if p.1 % 4294967296 % 5 + 2 = 2 + 2 ∧ p.1 % 65536 / 5 + 1 = 2 + 1 then none
        else some p.2 := by
  unfold placedTiles generate_for_person placeTiles
  rw [List.filterMap_map]
  refine List.filterMap_congr ?_
  intro p _
  by_cases h : p.1 % 4294967296 % 5 + 2 = 2 + 2 ∧ p.1 % 65536 / 5 + 1 = 2 + 1
  · simp [Function.comp, h]
  · have h2 : ¬(p.1 % 4294967296 % 5 = 2 ∧ p.1 % 65536 / 5 = 2) := by omega
    simp [Function.comp, h2]

theorem placedTiles_generate (name : Tile) (swaps : List (Nat × Nat)) (tiles : List Tile)
    (free : Tile) (hub : (shuffleFY swaps tiles).length ≤ 65547) :
    placedTiles (generate_for_person name swaps tiles free) =
      (shuffleFY swaps tiles).eraseIdx 12 := by
  rw [placedTiles_eq_filterMap]
  rw [List.filterMap_congr (g := fun p : Nat × Tile => if p.1 = 12 then none else some p.2) ?_]
  · have := enumFrom_filterMap_eraseIdx (shuffleFY swaps tiles) 0 12 (by omega)
    simpa using this
  · intro p hp
    obtain ⟨-, hplt, -⟩ := List.mem_enumFrom hp
    have hpi : p.1 < 65547 := by omega
    show (if p.1 % 4294967296 % 5 + 2 = 2 + 2 ∧ p.1 % 65536 / 5 + 1 = 2 + 1 then none
      else some p.2) = if p.1 = 12 then none else some p.2
    by_cases h : p.1 = 12
    · rw [if_pos ((center_iff p.1 hpi).mpr h), if_pos h]
    · rw [if_neg (fun hc => h ((center_iff p.1 hpi).mp hc)), if_neg h]

theorem filterMap_center_sublist :
    ∀ l : List (Nat × Tile),
      (l.filterMap fun p =>
        if p.1 % 4294967296 % 5 + 2 = 2 + 2 ∧ p.1 % 65536 / 5 + 1 = 2 + 1 then none
        else some p.2).Sublist (l.map Prod.snd)
  | [] => List.Sublist.refl []
  | p :: l => by
    by_cases h : p.1 % 4294967296 % 5 + 2 = 2 + 2 ∧ p.1 % 65536 / 5 + 1 = 2 + 1
    · simp only [List.filterMap_cons, List.map_cons, if_pos h]
      exact (filterMap_center_sublist l).cons p.2
    · simp only [List.filterMap_cons, List.map_cons, if_neg h]
      exact (filterMap_center_sublist l).cons₂ p.2

theorem placedTiles_sublist (name : Tile) (swaps : List (Nat × Nat)) (tiles : List Tile)
    (free : Tile) :
    (placedTiles (generate_for_person name swaps tiles free)).Sublist
      (shuffleFY swaps tiles) := by
  rw [placedTiles_eq_filterMap]
  have h := filterMap_center_sublist (shuffleFY swaps tiles).enum
  rwa [List.enum_map_snd] at h

theorem mem_eraseIdx_of_nodup (sh : List Tile) (hnd : sh.Nodup) (h13 : 12 < sh.length)
    (t : Tile) : t ∈ sh.eraseIdx 12 ↔ t ∈ sh ∧ t ≠ sh.getD 12 [] := by
  have hx : sh.getD 12 [] = sh[12] := List.getD_eq_getElem sh [] h13
  have hdec : sh.take 12 ++ sh[12] :: sh.drop (12 + 1) = sh := by
    rw [← List.drop_eq_getElem_cons h13, List.take_append_drop]
  have heq : sh.eraseIdx 12 = sh.take 12 ++ sh.drop (12 + 1) :=
    List.eraseIdx_eq_take_drop_succ sh 12
  have hperm : sh.Perm (sh[12] :: sh.eraseIdx 12) := by
    rw [heq]
    have hp0 : (sh.take 12 ++ sh[12] :: sh.drop (12 + 1)).Perm
        (sh[12] :: (sh.take 12 ++ sh.drop (12 + 1))) := List.perm_middle
    rw [hdec] at hp0
    exact hp0
  have hnd2 : (sh[12] :: sh.eraseIdx 12).Nodup := hperm.nodup_iff.mp hnd
  have hnotmem : sh[12] ∉ sh.eraseIdx 12 := (List.nodup_cons.mp hnd2).1
  rw [hx]
  constructor
  · intro hmem
    refine ⟨hperm.mem_iff.mpr (List.mem_cons_of_mem _ hmem), ?_⟩
    intro hEq
    exact hnotmem (hEq ▸ hmem)
  · rintro ⟨hmem, hne⟩
    rcases List.mem_cons.mp (hperm.mem_iff.mp hmem) with h | h
    · exact absurd h hne
    · exact h

theorem innerLoop_isOk (tiles : List Tile) (limit i : Nat) (hi : i < tiles.length) :
    ∀ js : List Nat, (∀ j ∈ js, j < tiles.length) →
      ∃ rs, innerLoop tiles limit i js = Except.ok rs
  | [], _ => ⟨[], rfl⟩
  | j :: js, h => by
    obtain ⟨rs, hrs⟩ := innerLoop_isOk tiles limit i hi js
      (fun j' hj' => h j' (List.mem_cons_of_mem j hj'))
    rw [innerLoop, vecGet_ok tiles i hi, vecGet_ok tiles j (h j (List.mem_cons_self j js)), hrs]
    exact ⟨_, rfl⟩

theorem outerLoop_isOk (tiles : List Tile) (limit : Nat) :
    ∀ is : List Nat, (∀ i ∈ is, i < tiles.length) →
      ∃ rs, outerLoop tiles limit is = Except.ok rs
  | [], _ => ⟨[], rfl⟩
  | i :: is, h => by
    have hi := h i (List.mem_cons_self i is)
    obtain ⟨rs1, h1⟩ := innerLoop_isOk tiles limit i hi
      (List.range' (i + 1) (tiles.length - (i + 1)))
      (fun j hj => by
        rcases List.mem_range'_1.mp hj with ⟨ha, hb⟩
        omega)
    obtain ⟨rs2, h2⟩ := outerLoop_isOk tiles limit is
      (fun i' hi' => h i' (List.mem_cons_of_mem i hi'))
    rw [outerLoop, h1, h2]
    exact ⟨_, rfl⟩

theorem check_tiles_ok_of_ne_nil (tiles : List Tile) (limit : Nat) (hne : tiles ≠ []) :
    ∃ rs, check_tiles tiles limit = Except.ok rs := by
  have hlen : 1 ≤ tiles.length := List.length_pos.mpr hne
  have h1 : check_tiles tiles limit = outerLoop tiles limit (List.range (tiles.length - 1)) := by
    rw [check_tiles, usizeSub, if_pos hlen]
  rw [h1]
  exact outerLoop_isOk tiles limit (List.range (tiles.length - 1))
    (fun i hi => by have := List.mem_range.mp hi; omega)

theorem processArg_eq_usage (c : Config) (arg : List Char) :
    processArg c arg = ArgStep.usage → arg = "-h".toList := by
  unfold processArg
  intro h
  split at h
  · split at h <;> exact absurd h (by simp)
  · split at h
    · exact absurd h (by simp)
    · split at h
      · assumption
      · split at h <;> exact absurd h (by simp)

theorem runArgs_panic_of_badDist :
    ∀ (args : List (List Char)) (c : Config) (i : Nat), i < args.length →
      (∀ j, j < i → args.getD j [] ≠ "-h".toList) →
      (∃ d, stripPrefixLC ("--dist=".toList) (args.getD i []) = some d ∧ parseUsize d = none) →
      runArgs c args = ArgStep.panic
  | [], c, i, hi, _, _ => absurd hi (by simp)
  | a :: rest, c, 0, hi, hj, hbad => by
    obtain ⟨d, hd, hdp⟩ := hbad
    rw [runArgs, processArg]
    simp only [List.getD_cons_zero] at hd
    simp only [hd, hdp]
  | a :: rest, c, i + 1, hi, hj, hbad => by
    have hne : a ≠ "-h".toList := by
      have := hj 0 (by omega)
      simpa using this
    rw [runArgs]
    cases hpa : processArg c a with
    | cont c2 =>
      exact runArgs_panic_of_badDist rest c2 i (by simpa using hi)
        (fun j hjlt => by
          have := hj (j + 1) (by omega)
          simpa using this)
        (by simpa using hbad)
    | usage => exact absurd (processArg_eq_usage c a hpa) hne
    | panic => rfl

theorem runArgs_ne_usage : ∀ (args : List (List Char)) (c : Config),
    "-h".toList ∉ args → runArgs c args ≠ ArgStep.usage
  | [], c, _ => by simp [runArgs]
  | a :: rest, c, hmem => by
    rw [runArgs]
    cases hpa : processArg c a with
    | cont c2 => exact runArgs_ne_usage rest c2 (fun hc => hmem (List.mem_cons_of_mem a hc))
    | usage =>
      exact absurd ((processArg_eq_usage c a hpa) ▸ List.mem_cons_self a rest) hmem
    | panic => simp

theorem cell_write_inv (sh : List Tile) (free : Tile) (e : Nat × Nat × CellContent)
    (h : e ∈ placeTiles sh free) :
    ∃ i, i < sh.length ∧ e.1 = i % 4294967296 % 5 + 2 ∧ e.2.1 = i % 65536 / 5 + 1 ∧
      (((i % 4294967296 % 5 + 2 = 2 + 2 ∧ i % 65536 / 5 + 1 = 2 + 1) ∧
          e.2.2 = CellContent.freeSquare free) ∨
       (¬(i % 4294967296 % 5 + 2 = 2 + 2 ∧ i % 65536 / 5 + 1 = 2 + 1) ∧
          e.2.2 = CellContent.tile (sh.getD i []))) := by
  rcases List.mem_map.mp h with ⟨p, hpmem, hpe⟩
  obtain ⟨-, hlt, hx⟩ := List.mem_enumFrom hpmem
  simp only [Nat.sub_zero] at hx
  have hip : p.1 < sh.length := by omega
  have hgd : sh.getD p.1 [] = p.2 := by
    rw [List.getD_eq_getElem sh [] hip]
    exact hx.symm
  refine ⟨p.1, hip, ?_⟩
  revert hpe
  split
  · next hcond =>
    rintro rfl
    exact ⟨rfl, rfl, Or.inl ⟨hcond, rfl⟩⟩
  · next hcond =>
    rintro rfl
    exact ⟨rfl, rfl, Or.inr ⟨hcond, by rw [hgd]⟩⟩

theorem tile_write_inv (sh : List Tile) (free : Tile) (r c : Nat) (t : Tile)
    (h : (r, c, CellContent.tile t) ∈ placeTiles sh free) :
    ∃ i, i < sh.length ∧ sh.getD i [] = t ∧
      r = i % 4294967296 % 5 + 2 ∧ c = i % 65536 / 5 + 1 := by
  obtain ⟨i, hi, hr, hc, hcase⟩ := cell_write_inv sh free (r, c, CellContent.tile t) h
  rcases hcase with ⟨-, hco⟩ | ⟨-, hco⟩
  · exact absurd hco (by simp)
  · exact ⟨i, hi, by injection hco.symm, hr, hc⟩

/-- **C1 is false as stated**: with 26 tiles, `generate_for_person` writes
the tile shuffled to position 25 at row 2, column 6 — outside the five
columns of the grid. -/
theorem grid_writes_counterexample :
    (2, 6, CellContent.tile ['z']) ∈
      (generate_for_person [] [] ((List.range 26).map fun k => [Char.ofNat (97 + k)])
        ['F']).cells ∧
    ¬(6 ≤ 5) := ⟨by decide, by decide⟩

/-- **C1 (amended).** For every tile set of at most 25 tiles, every write of
`generate_for_person` lands inside the 5×5 grid (rows 2..6, columns 1..5),
the center cell (row 4, column 3) is only ever written with the free-square
text, and the tiles written are exactly the shuffled tile vector minus the
entry at position 12 (each into its own cell). -/
theorem grid_writes_in_bounds (name : Tile) (swaps : List (Nat × Nat)) (tiles : List Tile)
    (free : Tile) (h25 : tiles.length ≤ 25) :
    (∀ e ∈ (generate_for_person name swaps tiles free).cells,
      2 ≤ e.1 ∧ e.1 ≤ 6 ∧ 1 ≤ e.2.1 ∧ e.2.1 ≤ 5) ∧
    (∀ e ∈ (generate_for_person name swaps tiles free).cells,
      e.1 = 4 ∧ e.2.1 = 3 → e.2.2 = CellContent.freeSquare free) ∧
    placedTiles (generate_for_person name swaps tiles free) =
      (shuffleFY swaps tiles).eraseIdx 12 := by
  have hlen : (shuffleFY swaps tiles).length = tiles.length :=
    (shuffleFY_perm swaps tiles).length_eq
  refine ⟨?_, ?_, placedTiles_generate name swaps tiles free (by omega)⟩
  · intro e he
    obtain ⟨i, hi, hr, hc, -⟩ := cell_write_inv _ free e he
    rw [hlen] at hi
    omega
  · rintro e he ⟨h4, h3⟩
    obtain ⟨i, hi, hr, hc, hcase⟩ := cell_write_inv _ free e he
    rcases hcase with ⟨-, hco⟩ | ⟨hne, -⟩
    · exact hco
    · exact absurd ⟨by omega, by omega⟩ hne

/-- Witness for the amended C1 at a concrete one-tile set. -/
theorem grid_writes_in_bounds_witness :
    ([['a']] : List Tile).length ≤ 25 ∧
    ((∀ e ∈ (generate_for_person [] [] [['a']] ['F']).cells,
      2 ≤ e.1 ∧ e.1 ≤ 6 ∧ 1 ≤ e.2.1 ∧ e.2.1 ≤ 5) ∧
    (∀ e ∈ (generate_for_person [] [] [['a']] ['F']).cells,
      e.1 = 4 ∧ e.2.1 = 3 → e.2.2 = CellContent.freeSquare ['F']) ∧
    placedTiles (generate_for_person [] [] [['a']] ['F']) =
      (shuffleFY [] [['a']]).eraseIdx 12) :=
  ⟨by decide, grid_writes_in_bounds [] [] [['a']] ['F'] (by decide)⟩

/-- **C4.** For every list of player names, the worksheet loop creates
exactly one worksheet per name, in the order the names are given, and each
worksheet's name is that player's name. -/
theorem one_sheet_per_person (people : List Tile) (tiles : List Tile) (free : Tile)
    (shuffles : Nat → List (Nat × Nat)) :
    (buildSheets people tiles free shuffles).map Sheet.name = people ∧
    (buildSheets people tiles free shuffles).length = people.length := by
  constructor
  · rw [buildSheets, List.map_map]
    have hcomp : (Sheet.name ∘ fun p : Nat × Tile =>
        generate_for_person p.2 (shuffles p.1) tiles free) = Prod.snd := by
      funext p
      rfl
    rw [hcomp, List.enum_map_snd]
  · rw [buildSheets, List.length_map, List.enum_length]

/-- **C6.** The tiles placed on a card are a permutation of a subcollection
of the tile set: the shuffle preserves the multiset of tiles, the placed
tiles form a duplicate-free subsequence of the shuffled vector, and no two
cells of a card receive the same tile. -/
theorem placed_tiles_perm (name : Tile) (swaps : List (Nat × Nat)) (tiles : List Tile)
    (free : Tile) (hnd : tiles.Nodup) :
    (shuffleFY swaps tiles).Perm tiles ∧
    (placedTiles (generate_for_person name swaps tiles free)).Sublist
      (shuffleFY swaps tiles) ∧
    (placedTiles (generate_for_person name swaps tiles free)).Nodup ∧
    (∀ r1 c1 r2 c2 t,
      (r1, c1, CellContent.tile t) ∈ (generate_for_person name swaps tiles free).cells →
      (r2, c2, CellContent.tile t) ∈ (generate_for_person name swaps tiles free).cells →
      r1 = r2 ∧ c1 = c2) := by
  have hperm := shuffleFY_perm swaps tiles
  have hndsh : (shuffleFY swaps tiles).Nodup := hperm.nodup_iff.mpr hnd
  have hsub : (placedTiles (generate_for_person name swaps tiles free)).Sublist
      (shuffleFY swaps tiles) := placedTiles_sublist name swaps tiles free
  refine ⟨hperm, hsub, hsub.nodup hndsh, ?_⟩
  intro r1 c1 r2 c2 t h1 h2
  obtain ⟨i1, hi1, ht1, hr1, hc1⟩ := tile_write_inv _ free r1 c1 t h1
  obtain ⟨i2, hi2, ht2, hr2, hc2⟩ := tile_write_inv _ free r2 c2 t h2
  have hieq : i1 = i2 := by
    rw [List.getD_eq_getElem _ [] hi1] at ht1
    rw [List.getD_eq_getElem _ [] hi2] at ht2
    exact hndsh.getElem_inj_iff.mp (ht1.trans ht2.symm)
  subst hieq
  rw [hr1, hr2, hc1, hc2]
  exact ⟨rfl, rfl⟩

/-- Witness for C6 at a concrete two-tile set with one swap. -/
theorem placed_tiles_perm_witness :
    ([['a'], ['b']] : List Tile).Nodup ∧
    ((shuffleFY [(1, 0)] [['a'], ['b']]).Perm [['a'], ['b']] ∧
     (placedTiles (generate_for_person ['P'] [(1, 0)] [['a'], ['b']] ['F'])).Sublist
       (shuffleFY [(1, 0)] [['a'], ['b']]) ∧
     (placedTiles (generate_for_person ['P'] [(1, 0)] [['a'], ['b']] ['F'])).Nodup ∧
     (∀ r1 c1 r2 c2 t,
       (r1, c1, CellContent.tile t) ∈
         (generate_for_person ['P'] [(1, 0)] [['a'], ['b']] ['F']).cells →
       (r2, c2, CellContent.tile t) ∈
         (generate_for_person ['P'] [(1, 0)] [['a'], ['b']] ['F']).cells →
       r1 = r2 ∧ c1 = c2)) :=
  ⟨by decide, placed_tiles_perm ['P'] [(1, 0)] [['a'], ['b']] ['F'] (by decide)⟩

/-- **C9 is false as stated**: on the 65548-tile set `bigTiles` (with no
shuffle swaps, so tiles stay in order), the tile at shuffled index 65547 —
`replicate 65548 'a'`, a tile different from the one at index 12 — is also
omitted from the card, because the truncating casts (`65547 as u16 = 11`)
put index 65547 on the center cell (row 4, column 3) as well, so more than
one tile is omitted. -/
theorem free_square_counterexample :
    bigTiles.Nodup ∧ 13 ≤ bigTiles.length ∧
    List.replicate 65548 'a' ∈ bigTiles ∧
    List.replicate 65548 'a' ≠ (shuffleFY [] bigTiles).getD 12 [] ∧
    List.replicate 65548 'a' ∉ placedTiles (generate_for_person [] [] bigTiles ['F']) := by
  have hinj : Function.Injective fun k => List.replicate (k + 1) 'a' := by
    intro a b hab
    have hl := congrArg List.length hab
    simpa using hl
  have hlen : bigTiles.length = 65548 := by
    simp [bigTiles]
  have hsh : shuffleFY [] bigTiles = bigTiles := shuffleFY_nil bigTiles
  have hget : ∀ i, i < 65548 → bigTiles.getD i [] = List.replicate (i + 1) 'a' := by
    intro i h
    have h2 : i < ((List.range 65548).map fun k => List.replicate (k + 1) 'a').length := by
      simpa using h
    show ((List.range 65548).map fun k => List.replicate (k + 1) 'a').getD i [] =
      List.replicate (i + 1) 'a'
    rw [List.getD_eq_getElem _ [] h2, List.getElem_map, List.getElem_range]
  refine ⟨?_, ?_, ?_, ?_, ?_⟩
  · exact (List.nodup_range 65548).map hinj
  · omega
  · refine List.mem_map.mpr ⟨65547, List.mem_range.mpr (by omega), ?_⟩
    norm_num
  · rw [hsh, hget 12 (by omega)]
    intro hEq
    have hl := congrArg List.length hEq
    rw [List.length_replicate, List.length_replicate] at hl
    omega
  · rw [placedTiles_eq_filterMap]
    intro hmem
    rcases List.mem_filterMap.mp hmem with ⟨p, hp, hsome⟩
    obtain ⟨-, hplt, hx⟩ := List.mem_enumFrom hp
    simp only [Nat.sub_zero] at hx
    have h0 : (shuffleFY [] bigTiles).length = 65548 := by
      rw [hsh]
      exact hlen
    have hply : p.1 < (shuffleFY [] bigTiles).length := by omega
    have hply48 : p.1 < 65548 := by omega
    have hpd : (shuffleFY [] bigTiles).getD p.1 [] = p.2 := by
      rw [List.getD_eq_getElem _ [] hply]
      exact hx.symm
    rw [hsh] at hpd
    have hp2 : p.2 = List.replicate (p.1 + 1) 'a' := by
      rw [← hpd, hget p.1 hply48]
    rw [hp2] at hsome
    revert hsome
    split
    · intro hsome
      exact Option.noConfusion hsome
    · next hncond =>
      intro hsome
      have heq := Option.some.inj hsome
      have hlp : p.1 + 1 = 65548 := by
        have hll := congrArg List.length heq
        rw [List.length_replicate, List.length_replicate] at hll
        exact hll
      exact hncond (by omega)

/-- **C9 (amended).** With at least 13 and at most 65547 tiles, exactly one
tile — the one shuffled to linear index 12, the center position — is omitted
from the card, which shows the free square plus every other tile; with fewer
than 13 tiles the free-square text is never written.  (Beyond 65547 tiles
the truncating `as u16`/`as u32` casts make the center condition fire again,
first at shuffled index 65547.) -/
theorem free_square_omission (name : Tile) (swaps : List (Nat × Nat)) (tiles : List Tile)
    (free : Tile) (hnd : tiles.Nodup) :
    (13 ≤ tiles.length → tiles.length ≤ 65547 →
      placedTiles (generate_for_person name swaps tiles free) =
        (shuffleFY swaps tiles).eraseIdx 12 ∧
      (placedTiles (generate_for_person name swaps tiles free)).length =
        tiles.length - 1 ∧
      (∀ t, t ∈ placedTiles (generate_for_person name swaps tiles free) ↔
        t ∈ tiles ∧ t ≠ (shuffleFY swaps tiles).getD 12 []) ∧
      (4, 3, CellContent.freeSquare free) ∈ (generate_for_person name swaps tiles free).cells) ∧
    (tiles.length < 13 →
      ∀ r c, (r, c, CellContent.freeSquare free) ∉
        (generate_for_person name swaps tiles free).cells) := by
  have hperm := shuffleFY_perm swaps tiles
  have hndsh : (shuffleFY swaps tiles).Nodup := hperm.nodup_iff.mpr hnd
  have hlen : (shuffleFY swaps tiles).length = tiles.length := hperm.length_eq
  constructor
  · intro h13 hub
    have hsh12 : 12 < (shuffleFY swaps tiles).length := by omega
    refine ⟨placedTiles_generate name swaps tiles free (by omega), ?_, ?_, ?_⟩
    · rw [placedTiles_generate name swaps tiles free (by omega),
        List.length_eraseIdx, if_pos hsh12, hlen]
    · intro t
      rw [placedTiles_generate name swaps tiles free (by omega),
        mem_eraseIdx_of_nodup _ hndsh hsh12 t, hperm.mem_iff]
    · have h12 : 12 < (placeTiles (shuffleFY swaps tiles) free).length := by
        rw [placeTiles, List.length_map, List.enum_length]
        omega
      have hval : (placeTiles (shuffleFY swaps tiles) free).get ⟨12, h12⟩ =
          (4, 3, CellContent.freeSquare free) := by
        simp [placeTiles, List.getElem_map, List.getElem_enum]
      have hmem := List.get_mem (placeTiles (shuffleFY swaps tiles) free) 12 h12
      rw [hval] at hmem
      exact hmem
  · intro hlt r c hmem
    obtain ⟨i, hi, -, -, hcase⟩ := cell_write_inv _ free _ hmem
    rw [hlen] at hi
    rcases hcase with ⟨⟨ha, hb⟩, -⟩ | ⟨-, hco⟩
    · have h32 : i % 4294967296 = i := Nat.mod_eq_of_lt (by omega)
      have h16 : i % 65536 = i := Nat.mod_eq_of_lt (by omega)
      rw [h32] at ha
      rw [h16] at hb
      omega
    · exact absurd hco (by simp)

/-- Witness for C9 at a concrete 13-tile set (first part) and a concrete
one-tile set (second part). -/
theorem free_square_omission_witness :
    (((List.range 13).map fun k => [Char.ofNat (97 + k)]) : List Tile).Nodup ∧
    (13 ≤ (((List.range 13).map fun k => [Char.ofNat (97 + k)]) : List Tile).length) ∧
    ((((List.range 13).map fun k => [Char.ofNat (97 + k)]) : List Tile).length ≤ 65547) ∧
    ((4, 3, CellContent.freeSquare ['F']) ∈
      (generate_for_person [] [] ((List.range 13).map fun k => [Char.ofNat (97 + k)])
        ['F']).cells) ∧
    ([['a']] : List Tile).Nodup ∧ ([['a']] : List Tile).length < 13 ∧
    ∀ r c, (r, c, CellContent.freeSquare ['F']) ∉
      (generate_for_person [] [] [['a']] ['F']).cells :=
  ⟨by decide, by decide, by decide,
   (((free_square_omission [] [] ((List.range 13).map fun k => [Char.ofNat (97 + k)])
      ['F'] (by decide)).1) (by decide) (by decide)).2.2.2,
   by decide, by decide,
   ((free_square_omission [] [] [['a']] ['F'] (by decide)).2) (by decide)⟩

/-- **C2.** For every duplicate-free tile vector with at least two elements
and every distance limit, `check_tiles` traverses each unordered pair of
distinct tiles exactly once (the traversed index pairs are exactly the
`(i, j)` with `i < j < n`, without repetition) and reports a pair if and
only if its Levenshtein edit distance is at most the limit. -/
theorem check_tiles_pairwise_spec (tiles : List Tile) (limit : Nat)
    (hnd : tiles.Nodup) (h2 : 2 ≤ tiles.length) :
    check_tiles tiles limit =
      Except.ok ((allPairs tiles.length).filterMap fun p => simReport tiles limit p.1 p.2) ∧
    (allPairs tiles.length).Nodup ∧
    ∀ i j, ((i, j) ∈ allPairs tiles.length ↔ i < j ∧ j < tiles.length) :=
  ⟨check_tiles_eq tiles limit hnd (by rintro rfl; simp at h2),
   nodup_allPairs _, fun i j => mem_allPairs _ i j⟩

/-- Witness for C2 at a concrete two-tile set. -/
theorem check_tiles_pairwise_spec_witness :
    ([['a'], ['a', 'b', 'c']] : List Tile).Nodup ∧
    2 ≤ ([['a'], ['a', 'b', 'c']] : List Tile).length ∧
    (check_tiles [['a'], ['a', 'b', 'c']] 1 =
      Except.ok ((allPairs ([['a'], ['a', 'b', 'c']] : List Tile).length).filterMap
        fun p => simReport [['a'], ['a', 'b', 'c']] 1 p.1 p.2) ∧
    (allPairs ([['a'], ['a', 'b', 'c']] : List Tile).length).Nodup ∧
    ∀ i j, ((i, j) ∈ allPairs ([['a'], ['a', 'b', 'c']] : List Tile).length ↔
      i < j ∧ j < ([['a'], ['a', 'b', 'c']] : List Tile).length)) :=
  ⟨by decide, by decide,
   check_tiles_pairwise_spec [['a'], ['a', 'b', 'c']] 1 (by decide) (by decide)⟩

/-- **C8.** For every non-empty tile vector, all indexing inside
`check_tiles` is in bounds and it returns normally (the indexing error
branch is unreachable); for the empty tile vector the loop bound
`tiles.len() - 1` underflows on the unsigned zero length and `check_tiles`
panics. -/
theorem check_tiles_safety (tiles : List Tile) (limit : Nat) :
    (tiles ≠ [] → ∃ rs, check_tiles tiles limit = Except.ok rs) ∧
    check_tiles [] limit = Except.error "attempt to subtract with overflow" :=
  ⟨check_tiles_ok_of_ne_nil tiles limit, rfl⟩

/-- Witness for C8 at a concrete one-tile set. -/
theorem check_tiles_safety_witness :
    (([['a']] : List Tile) ≠ [] ∧ ∃ rs, check_tiles [['a']] 0 = Except.ok rs) ∧
    check_tiles [] 0 = Except.error "attempt to subtract with overflow" :=
  ⟨⟨by decide, (check_tiles_safety [['a']] 0).1 (by decide)⟩, (check_tiles_safety [] 0).2⟩

/-- **C10.** The duplicate-report branch of `check_tiles` is unreachable on
any tile set produced by `load_tiles`: the loaded tiles are pairwise
distinct, so no run ever emits a duplicate report. -/
theorem dup_branch_unreachable (fileLines : List (List Char)) (limit : Nat)
    (rs : List Report) (h : check_tiles (load_tiles fileLines) limit = Except.ok rs) :
    ∀ a, Report.dup a ∉ rs := by
  intro a hmem
  by_cases hne : load_tiles fileLines = []
  · rw [hne] at h
    exact absurd h (by simp [check_tiles, usizeSub])
  · have hnd : (load_tiles fileLines).Nodup := List.nodup_dedup _
    rw [check_tiles_eq _ limit hnd hne] at h
    injection h with h
    subst h
    rcases List.mem_filterMap.mp hmem with ⟨p, hp, hsim⟩
    revert hsim
    simp only [simReport]
    split
    · intro hsome
      exact Report.noConfusion (Option.some.inj hsome)
    · intro hnone
      exact Option.noConfusion hnone

/-- Witness for C10 at a concrete one-tile file. -/
theorem dup_branch_unreachable_witness :
    check_tiles (load_tiles [['a']]) 0 = Except.ok [] ∧
    ∀ a, Report.dup a ∉ ([] : List Report) :=
  ⟨rfl, dup_branch_unreachable [['a']] 0 [] rfl⟩

/-- **C5 is false as stated**: a `-h` argument preceding a malformed
`--dist` makes `main` print usage and return without panicking. -/
theorem usage_bypasses_panic :
    mainModel ["-h".toList, "--dist=abc".toList] (some [['a']]) (fun _ => []) =
      MainResult.usage ∧
    MainResult.usage ≠ MainResult.panic := ⟨rfl, by decide⟩

/-- **C5 (amended).** In every run whose argument list contains a `--dist`
argument with an unparseable value that is not preceded by a `-h`, `main`
panics (and generates nothing); and in every run whose arguments contain no
`-h`, a failure to open or read `tiles.txt` makes `main` panic. -/
theorem malformed_input_panics (args : List (List Char))
    (fileLines : Option (List (List Char))) (shuffles : Nat → List (Nat × Nat)) :
    (∀ i, i < args.length →
      (∀ j, j < i → args.getD j [] ≠ "-h".toList) →
      (∃ d, stripPrefixLC ("--dist=".toList) (args.getD i []) = some d ∧
        parseUsize d = none) →
      mainModel args fileLines shuffles = MainResult.panic) ∧
    ("-h".toList ∉ args → fileLines = none →
      mainModel args fileLines shuffles = MainResult.panic) := by
  constructor
  · intro i hi hj hbad
    have hp := runArgs_panic_of_badDist args defaultConfig i hi hj hbad
    unfold mainModel
    rw [hp]
  · intro hmem hnone
    subst hnone
    have hnu := runArgs_ne_usage args defaultConfig hmem
    unfold mainModel
    cases hra : runArgs defaultConfig args with
    | cont c => rfl
    | usage => exact absurd hra hnu
    | panic => rfl

/-- Witness for the amended C5: a malformed `--dist=abc` run panics, and a
run with a missing tile file panics. -/
theorem malformed_input_panics_witness :
    (∃ d, stripPrefixLC ("--dist=".toList) ("--dist=abc".toList) = some d ∧
      parseUsize d = none) ∧
    mainModel ["--dist=abc".toList] (some [['a']]) (fun _ => []) = MainResult.panic ∧
    ("-h".toList ∉ ([['x']] : List (List Char))) ∧
    mainModel [['x']] none (fun _ => []) = MainResult.panic :=
  ⟨⟨"abc".toList, by decide, by decide⟩,
   (malformed_input_panics ["--dist=abc".toList] (some [['a']]) (fun _ => [])).1 0
     (by decide) (fun j hj => absurd hj (by omega))
     ⟨"abc".toList, by decide, by decide⟩,
   by decide,
   (malformed_input_panics [['x']] none (fun _ => [])).2 (by decide) rfl⟩

/-- **C7.** Checking is advisory only: whenever the argument loop completes
and the loaded tile set is non-empty, `main` generates the cards from
exactly the full tile set returned by `load_tiles`, whatever `check_tiles`
reported. -/
theorem check_advisory (args : List (List Char)) (ls : List (List Char)) (c : Config)
    (shuffles : Nat → List (Nat × Nat))
    (hargs : runArgs defaultConfig args = ArgStep.cont c)
    (hne : load_tiles ls ≠ []) :
    mainModel args (some ls) shuffles =
      MainResult.done (buildSheets c.people (load_tiles ls) c.free_square shuffles) := by
  obtain ⟨rs, hrs⟩ := check_tiles_ok_of_ne_nil (load_tiles ls) c.distance_limit hne
  simp only [mainModel, hargs, hrs]

/-- Witness for C7: with no arguments and the one-line file, the default
people each get a card from the full tile set. -/
theorem check_advisory_witness :
    runArgs defaultConfig [] = ArgStep.cont defaultConfig ∧
    load_tiles [['a']] ≠ [] ∧
    mainModel [] (some [['a']]) (fun _ => []) =
      MainResult.done (buildSheets defaultConfig.people (load_tiles [['a']])
        defaultConfig.free_square (fun _ => [])) :=
  ⟨rfl, by decide, check_advisory [] [['a']] defaultConfig (fun _ => []) rfl (by decide)⟩

end Bingo
